import Mathlib

/-!
# Verification of the Titanium/Alloy editor-extension text tooling

Shallow embedding of the completion, definition/hover, reference-search,
update-installation and i18n-insertion logic of the
`vscode-appcelerator-titanium` extension, together with proofs about the
properties its specification claims.

JavaScript regular expressions are embedded via a small backtracking
engine (`RE`, `reM`) whose alternation and quantifier ordering follows
ECMAScript semantics: alternatives are tried left to right, `*`/`+` are
greedy and `*?`/`+?` lazy, a capture group records the text consumed by
its body on the successful path (for a starred group, the last
iteration), and an unanchored `test`/`exec` tries start positions left to
right.  All star bodies occurring in this code base consume at least one
character per iteration, which the engine enforces, matching ECMAScript's
rejection of empty quantifier iterations.
-/

namespace TiExt

/-- Abstract syntax of the (small) regular-expression fragment used by the
extension: character classes, sequencing, alternation, greedy and lazy
star, numbered capture groups and the end-of-input anchor `$`. -/
inductive RE where
  | eps : RE
  | cls : (Char → Bool) → RE
  | seq : RE → RE → RE
  | alt : RE → RE → RE
  | star : RE → RE
  | starL : RE → RE
  | grp : Nat → RE → RE
  | eos : RE

/-- A literal character. -/
def RE.lit (c : Char) : RE := .cls (fun x => x = c)

/-- `r?` (greedy option). -/
def RE.opt (r : RE) : RE := .alt r .eps

/-- `r+` (greedy plus). -/
def RE.plus (r : RE) : RE := .seq r (.star r)

/-- A literal string. -/
def strRE (s : String) : RE := s.data.foldr (fun c r => RE.seq (RE.lit c) r) RE.eps

/-- A case-insensitive literal string (for regexes carrying the `i` flag). -/
def strREci (s : String) : RE :=
  s.data.foldr (fun c r => RE.seq (RE.cls (fun x => x.toLower = c.toLower)) r) RE.eps

/-- Capture environment: latest binding of each group number first. -/
abbrev Caps := List (Nat × String)

/-- Backtracking matcher in continuation-passing style.  `reM fuel r s caps k`
tries to match `r` against a prefix of `s`, extending `caps`, and hands the
remaining input and captures to `k`; the first success (in ECMAScript
backtracking order) wins.  `fuel` bounds star unrolling; every star
iteration is required to consume input, so `s.length + 1` fuel is always
sufficient. -/
def reM : Nat → RE → List Char → Caps →
    (List Char → Caps → Option (List Char × Caps)) → Option (List Char × Caps)
  | 0, _, _, _, _ => none
  | fuel + 1, r, s, caps, k =>
    match r with
    | .eps => k s caps
    | .cls p =>
      match s with
      | [] => none
      | c :: rest => if p c then k rest caps else none
    | .seq a b => reM fuel a s caps (fun s1 c1 => reM fuel b s1 c1 k)
    | .alt a b =>
      match reM fuel a s caps k with
      | some res => some res
      | none => reM fuel b s caps k
    | .grp n a =>
      reM fuel a s caps (fun s1 c1 =>
        k s1 ((n, (s.take (s.length - s1.length)).asString) :: c1))
    | .star a =>
      match reM fuel a s caps (fun s1 c1 =>
          if s1.length < s.length then reM fuel (.star a) s1 c1 k else none) with
      | some res => some res
      | none => k s caps
    | .starL a =>
      match k s caps with
      | some res => some res
      | none =>
        reM fuel a s caps (fun s1 c1 =>
          if s1.length < s.length then reM fuel (.starL a) s1 c1 k else none)
    | .eos =>
      match s with
      | [] => k s caps
      | _ :: _ => none

/-- The structural size of a regex, for the fuel bound. -/
def reSize : RE → Nat
  | .seq a b => reSize a + reSize b + 1
  | .alt a b => reSize a + reSize b + 1
  | .star a => reSize a + 1
  | .starL a => reSize a + 1
  | .grp _ a => reSize a + 1
  | _ => 1

/-- A fuel bound sufficient for `reM`: along any chain of nested `reM`
calls, either the regex gets structurally smaller or (on a star re-entry)
the input strictly shrinks with the regex reset, so the chain length is at
most `(reSize r + 1) * (s.length + 1)`. -/
def reFuel (r : RE) (s : List Char) : Nat := (reSize r + 1) * (s.length + 1) + 1

/-- Attempt a match of `r` at position `i` of `cs`; on success return the
end position of the match and the captures. -/
def reMatchAt (r : RE) (cs : List Char) (i : Nat) : Option (Nat × Caps) :=
  let tail := cs.drop i
  match reM (reFuel r tail) r tail [] (fun rest caps => some (rest, caps)) with
  | some (rest, caps) => some (i + (tail.length - rest.length), caps)
  | none => none

/-- Unanchored search: try start positions `i, i+1, …, cs.length` and return
`(start, end, captures)` of the leftmost match. -/
def reSearchAux (r : RE) (cs : List Char) (i : Nat) : Nat → Option (Nat × Nat × Caps)
  | 0 => none
  | fuel + 1 =>
    match reMatchAt r cs i with
    | some (e, caps) => some (i, e, caps)
    | none => reSearchAux r cs (i + 1) fuel

/-- Leftmost match of `r` in `cs` at or after position `i`. -/
def reSearchFrom (r : RE) (cs : List Char) (i : Nat) : Option (Nat × Nat × Caps) :=
  reSearchAux r cs i (cs.length + 1 - i)

/-- JavaScript `RegExp.prototype.test` for a regex without the `g` flag. -/
def reTest (r : RE) (s : String) : Bool := (reSearchFrom r s.data 0).isSome

/-- Largest group number occurring in `r` (JavaScript match arrays have one
slot per group of the pattern, defined or not). -/
def RE.maxGroup : RE → Nat
  | .seq a b => max a.maxGroup b.maxGroup
  | .alt a b => max a.maxGroup b.maxGroup
  | .star a => a.maxGroup
  | .starL a => a.maxGroup
  | .grp n a => max n a.maxGroup
  | _ => 0

/-- The slice `cs[a..b)` as a string. -/
def sliceStr (cs : List Char) (a b : Nat) : String := ((cs.drop a).take (b - a)).asString

/-- The JavaScript match array `[whole, group1, …, groupN]` of a successful
match; groups that did not participate are `none` (JS `undefined`). -/
def matchArray (r : RE) (cs : List Char) (st en : Nat) (caps : Caps) : List (Option String) :=
  some (sliceStr cs st en) :: (List.range r.maxGroup).map (fun j => caps.lookup (j + 1))

/-- JavaScript `String.prototype.match` for a non-global regex: the match
array of the leftmost match, or `none`. -/
def jsMatch (r : RE) (s : String) : Option (List (Option String)) :=
  match reSearchFrom r s.data 0 with
  | some (st, en, caps) => some (matchArray r s.data st en caps)
  | none => none

/-- Group `n` of the leftmost match of `r` in `s` (`none` when the overall
match fails or the group did not participate). -/
def jsMatchGroup (r : RE) (s : String) (n : Nat) : Option String :=
  match reSearchFrom r s.data 0 with
  | some (_, _, caps) => caps.lookup n
  | none => none

/-- All matches of a global regex, as produced by repeated `exec` calls that
resume from the previous match's end (`lastIndex`).  The extension only
iterates patterns that cannot match the empty string; a (theoretically)
non-advancing match, on which the JavaScript loop would not terminate, stops
the iteration here. -/
def execAllAux (r : RE) (cs : List Char) (i : Nat) : Nat → List (Nat × Nat × Caps)
  | 0 => []
  | fuel + 1 =>
    match reSearchFrom r cs i with
    | none => []
    | some (st, en, caps) =>
      (st, en, caps) :: (if i < en then execAllAux r cs en fuel else [])

/-- All global matches of `r` in `s` starting from position 0. -/
def execAll (r : RE) (s : String) : List (Nat × Nat × Caps) :=
  execAllAux r s.data 0 (s.length + 1)

/-! ## String helpers mirroring the JavaScript string API

These work on `String.data` directly so that every definition evaluates by
kernel reduction on concrete inputs. -/

/-- The first `n` characters of `s`. -/
def strTake (s : String) (n : Nat) : String := (s.data.take n).asString

/-- `s` without its last `n` characters. -/
def strDropRight (s : String) (n : Nat) : String := (s.data.take (s.data.length - n)).asString

/-- `s` without its first `n` characters. -/
def strDrop (s : String) (n : Nat) : String := (s.data.drop n).asString

/-- Is `s` empty? -/
def strIsEmpty (s : String) : Bool := s.data.isEmpty

/-- Split on a single-character separator (JavaScript `split(sep)`). -/
def splitOnCharAux (sep : Char) : List Char → List Char → List String
  | [], acc => [acc.reverse.asString]
  | c :: t, acc =>
    if c = sep then acc.reverse.asString :: splitOnCharAux sep t []
    else splitOnCharAux sep t (c :: acc)

/-- JavaScript `String.prototype.split` with a one-character separator. -/
def splitOnChar (sep : Char) (s : String) : List String := splitOnCharAux sep s.data []

/-- `n` is a (character-wise) prefix of `h`. -/
def isPrefixL : List Char → List Char → Bool
  | [], _ => true
  | _ :: _, [] => false
  | a :: as, b :: bs => a = b && isPrefixL as bs

/-- First index at which `n` occurs in the haystack, scanning left to right. -/
def strFindAux (n : List Char) : List Char → Nat → Option Nat
  | [], i => if isPrefixL n [] then some i else none
  | c :: t, i => if isPrefixL n (c :: t) then some i else strFindAux n t (i + 1)

/-- First index of substring `n` in `h`, if any. -/
def strFindIdx (h n : String) : Option Nat := strFindAux n.data h.data 0

/-- JavaScript `String.prototype.indexOf` (`-1` when absent). -/
def jsIndexOfStr (h n : String) : Int :=
  match strFindIdx h n with
  | some i => (i : Int)
  | none => -1

/-- JavaScript `String.prototype.lastIndexOf` for a single character. -/
def jsLastIndexOfChar (s : String) (c : Char) : Int :=
  match (s.data.reverse).findIdx? (fun x => x = c) with
  | some j => (s.length : Int) - 1 - j
  | none => -1

/-- JavaScript `String.prototype.replace` with a plain-string pattern: only
the first occurrence is replaced. -/
def jsReplaceFirst (s pat repl : String) : String :=
  match strFindIdx s pat with
  | some i => sliceStr s.data 0 i ++ repl ++ ((s.data.drop (i + pat.length)).asString)
  | none => s

/-! ## Character classes of the extension's regular expressions -/

/-- `[-a-zA-Z0-9-_]` (the id classes of the controller provider). -/
def idChar (c : Char) : Bool :=
  (c = '-') || ('a' ≤ c && c ≤ 'z') || ('A' ≤ c && c ≤ 'Z') || ('0' ≤ c && c ≤ '9') || (c = '_')

/-- `[-a-zA-Z0-9-_/]`. -/
def idSlashChar (c : Char) : Bool := idChar c || (c = '/')

/-- `[-a-zA-Z0-9-_/.]`. -/
def widgetPathChar (c : Char) : Bool := idSlashChar c || (c = '.')

/-- `\w`. -/
def wordChar (c : Char) : Bool :=
  ('a' ≤ c && c ≤ 'z') || ('A' ≤ c && c ≤ 'Z') || ('0' ≤ c && c ≤ '9') || (c = '_')

/-- `[a-z]`. -/
def lowerChar (c : Char) : Bool := 'a' ≤ c && c ≤ 'z'

/-- `[A-Z]`. -/
def upperChar (c : Char) : Bool := 'A' ≤ c && c ≤ 'Z'

/-- `[a-zA-Z]`. -/
def alphaChar (c : Char) : Bool := ('a' ≤ c && c ≤ 'z') || ('A' ≤ c && c ≤ 'Z')

/-- `[-a-zA-Z]`. -/
def alphaDashChar (c : Char) : Bool := (c = '-') || alphaChar c

/-- `\s` (restricted to its ASCII members; the sources only handle ASCII). -/
def jsSpaceChar (c : Char) : Bool :=
  (c = ' ') || (c = '\t') || (c = '\n') || (c = '\r') || (c = '\x0b') || (c = '\x0c')

/-- `\S`. -/
def nonSpaceChar (c : Char) : Bool := !jsSpaceChar c

/-- `.` (any character except a line terminator). -/
def dotAnyChar (c : Char) : Bool := !(c = '\n') && !(c = '\r')

/-- `["']`. -/
def quoteChar (c : Char) : Bool := (c = '"') || (c = '\'')

/-- `[^'");]`. -/
def requireNameChar (c : Char) : Bool :=
  !((c = '\'') || (c = '"') || (c = ')') || (c = ';'))

/-- `[\w/.$]`. -/
def reqWordChar (c : Char) : Bool := wordChar c || (c = '/') || (c = '.') || (c = '$')

/-! ## The regular expressions of `ControllerCompletionItemProvider` -/

/-- `/\$\.([-a-zA-Z0-9-_]*)$/` (Alloy XML id: `$._`). -/
def reIdOnly : RE := .seq (strRE "$.") (.seq (.grp 1 (.star (.cls idChar))) .eos)

/-- `/\$\.([-a-zA-Z0-9-_]*).([-a-zA-Z0-9-_]*)$/` — the middle dot is
unescaped in the source and therefore matches any character. -/
def reIdMember : RE :=
  .seq (strRE "$.") (.seq (.grp 1 (.star (.cls idChar)))
    (.seq (.cls dotAnyChar) (.seq (.grp 2 (.star (.cls idChar))) .eos)))

/-- `/(?:Ti|Titanium)\.?\S+/i`. -/
def reTiTest : RE :=
  .seq (.alt (strREci "Ti") (strREci "Titanium"))
    (.seq (RE.opt (.lit '.')) (RE.plus (.cls nonSpaceChar)))

/-- `/\$\.([-a-zA-Z0-9-_]*)\.(add|remove)EventListener\(["']([-a-zA-Z0-9-_/]*)$/`. -/
def reEvent : RE :=
  .seq (strRE "$.") (.seq (.grp 1 (.star (.cls idChar)))
    (.seq (.lit '.') (.seq (.grp 2 (.alt (strRE "add") (strRE "remove")))
      (.seq (strRE "EventListener(") (.seq (.cls quoteChar)
        (.seq (.grp 3 (.star (.cls idSlashChar))) .eos))))))

/-- `/require\(["']?([^'");]*)["']?\)?$/`. -/
def reRequire : RE :=
  .seq (strRE "require(") (.seq (RE.opt (.cls quoteChar))
    (.seq (.grp 1 (.star (.cls requireNameChar)))
      (.seq (RE.opt (.cls quoteChar)) (.seq (RE.opt (.lit ')')) .eos))))

/-- `/Alloy\.(createController|Controllers\.instance)\(["']([-a-zA-Z0-9-_/]*["']?\)?)$/`. -/
def reCreateController : RE :=
  .seq (strRE "Alloy.")
    (.seq (.grp 1 (.alt (strRE "createController") (strRE "Controllers.instance")))
      (.seq (.lit '(') (.seq (.cls quoteChar)
        (.seq (.grp 2 (.seq (.star (.cls idSlashChar))
          (.seq (RE.opt (.cls quoteChar)) (RE.opt (.lit ')'))))) .eos))))

/-- `/Alloy\.(createModel|Models\.instance|createCollection|Collections\.instance)\(["']([-a-zA-Z0-9-_/]*)$/`. -/
def reCreateModel : RE :=
  .seq (strRE "Alloy.")
    (.seq (.grp 1 (.alt (strRE "createModel") (.alt (strRE "Models.instance")
      (.alt (strRE "createCollection") (strRE "Collections.instance")))))
      (.seq (.lit '(') (.seq (.cls quoteChar)
        (.seq (.grp 2 (.star (.cls idSlashChar))) .eos))))

/-- `/Alloy\.(createWidget|Widgets\.instance)\(["']([-a-zA-Z0-9-_/.]*)$/`. -/
def reCreateWidget : RE :=
  .seq (strRE "Alloy.")
    (.seq (.grp 1 (.alt (strRE "createWidget") (strRE "Widgets.instance")))
      (.seq (.lit '(') (.seq (.cls quoteChar)
        (.seq (.grp 2 (.star (.cls widgetPathChar))) .eos))))

/-- `/(?:Alloy)\.?\S+/`. -/
def reAlloyTest : RE :=
  .seq (strRE "Alloy") (.seq (RE.opt (.lit '.')) (RE.plus (.cls nonSpaceChar)))

/-- `/\$\.([-a-zA-Z0-9-_]*)\.?$/` (id extraction in
`getMethodAndPropertyCompletions`). -/
def reMethodId : RE :=
  .seq (strRE "$.") (.seq (.grp 1 (.star (.cls idChar))) (.seq (RE.opt (.lit '.')) .eos))

/-- `/(Ti\.(?:(?:[A-Z]\w*|iOS|iPad)\.?)*)([a-z]\w*)*$/`
(`getTitaniumApiCompletions`). -/
def reTiMatch : RE :=
  .seq (.grp 1 (.seq (strRE "Ti.")
      (.star (.seq (.alt (.seq (.cls upperChar) (.star (.cls wordChar)))
          (.alt (strRE "iOS") (strRE "iPad")))
        (RE.opt (.lit '.'))))))
    (.seq (.star (.grp 2 (.seq (.cls lowerChar) (.star (.cls wordChar))))) .eos)

/-- `/(Alloy\.(?:(?:[A-Z]\w*)\.?)*)([a-z]\w*)*$/` (`getAlloyApiCompletions`). -/
def reAlloyMatch : RE :=
  .seq (.grp 1 (.seq (strRE "Alloy.")
      (.star (.seq (.seq (.cls upperChar) (.star (.cls wordChar))) (RE.opt (.lit '.'))))))
    (.seq (.star (.grp 2 (.seq (.cls lowerChar) (.star (.cls wordChar))))) .eos)

/-- `/<([a-zA-Z][-a-zA-Z]*)(?:\s|$)/` (closest tag-name search in the view). -/
def reTagName : RE :=
  .seq (.lit '<') (.seq (.grp 1 (.seq (.cls alphaChar) (.star (.cls alphaDashChar))))
    (.alt (.cls jsSpaceChar) .eos))

/-- The dynamic `` new RegExp(`id=["']${id}["']`, 'g') `` of the controller
provider; the interpolated id only contains `[-a-zA-Z0-9-_]`, so every one of
its characters is a regex literal. -/
def idAttrRE (id : String) : RE :=
  .seq (strRE "id=") (.seq (.cls quoteChar) (.seq (strRE id) (.cls quoteChar)))

/-- `/id="(.+?)"/g` (`getIdCompletions`). -/
def reIdAttr : RE :=
  .seq (strRE "id=\"") (.seq (.grp 1 (.seq (.cls dotAnyChar) (.starL (.cls dotAnyChar)))) (.lit '"'))

/-- `/([\w/.$]+)/` (word range for the `require` branch). -/
def reRequireWord : RE := .grp 1 (RE.plus (.cls reqWordChar))

/-! ## Editor data model -/

/-- A caret position (0-based line and column, as in the host editor API). -/
structure Pos where
  line : Nat
  character : Nat
deriving DecidableEq, Repr

/-- A text range, given by its four coordinates. -/
structure Rng where
  startLine : Nat
  startCharacter : Nat
  endLine : Nat
  endCharacter : Nat
deriving DecidableEq, Repr

/-- A text document, as its list of lines. -/
abbrev Document := List String

/-- The text of line `l` (the empty string off the end, where the host API
would not hand out a position at all). -/
def lineAt (doc : Document) (l : Nat) : String := (doc.get? l).getD ""

/-- `document.getText(new Range(position.line, 0, position.line,
position.character))`: the text of the caret's line before the caret. -/
def linePrefixAt (doc : Document) (p : Pos) : String := strTake (lineAt doc p.line) p.character

/-- `document.positionAt(index)` for a document given as flat text with
`\n` line separators. -/
def positionAt (s : String) (idx : Nat) : Pos :=
  let pre := s.data.take idx
  ⟨pre.count '\n', ((pre.reverse).takeWhile (fun c => !(c = '\n'))).length⟩

/-- The part of line `p.line` before column `p.character`, for a document
given as flat text. -/
def textLinePrefix (s : String) (p : Pos) : String :=
  strTake (((splitOnChar '\n' s).get? p.line).getD "") p.character

/-- The completion-item kinds this extension produces (`classKind` stands
for the host API's `Class`, which is a reserved word here). -/
inductive CompletionItemKind where
  | method | property | reference | classKind | event
deriving DecidableEq, Repr

/-- A completion item, restricted to the fields the extension sets. -/
structure CompletionItem where
  label : String
  kind : CompletionItemKind
  detail : Option String := none
  insertText : Option String := none
  range : Option Rng := none
deriving DecidableEq, Repr

/-- A catalog entry of the Titanium/Alloy type catalog. -/
structure TiType where
  functions : List String
  properties : List String
  events : List String
deriving DecidableEq, Repr

/-- One rule of the `alloyAutoCompleteRules` module.  That module is not
among the sources; only the shape used by `provideCompletionItems`
(`regExp.test`, `requireRange`, `rangeRegex`, `getCompletions`) is modelled,
abstractly. -/
structure AlloyRule where
  test : String → Bool
  requireRange : Bool
  rangeRegex : RE
  getCompletions : Option Rng → Option (List CompletionItem)

/-- The environment of a completion request: the loaded completion catalog,
and the host- and file-system-backed functions the provider calls.
`matchesFn` — Modelled from the spec: `utils.matches` (the `utils` module is
not among the sources); per the spec the catalog is "consumed to
rank/filter suggestions" and a member suggestion is kept when its name
matches the typed attribute fragment, so the matcher is carried as an
abstract boolean test.  `openDocument` returns the text of a document or
`none` when `workspace.openTextDocument` rejects; `relatedXml` is the result
of `related.getTargetPath('xml')`; `wordRangeAt` is the host's
`document.getWordRangeAtPosition`; `jsFiles` is `utils.filterJSFiles`;
`widgetDependencies` holds the keys of `dependencies` in the parsed Alloy
`config.json` (`none` when opening or `JSON.parse` throws). -/
structure Env where
  alloyTags : List (String × String)
  titaniumTypes : List (String × TiType)
  alloyTypes : List (String × TiType)
  matchesFn : String → String → Bool
  relatedXml : Option String
  openDocument : String → Option String
  wordRangeAt : Document → Pos → RE → Option Rng
  rules : List AlloyRule
  alloyRootPath : String
  directoryExists : String → Bool
  jsFiles : String → List String
  widgetDependencies : Option (List String)

/-! ## The completion handlers (src/unnamed/part_002) -/

/-- Values of the first capture group over all `/id="(.+?)"/g` matches in
the view text. -/
def idMatchValues (text : String) : List String :=
  (execAll reIdAttr text).filterMap (fun t => t.2.2.lookup 1)

/-- The push-unless-seen loop of `getIdCompletions`. -/
def idCompletionLoop (fileName : String) : List String → List String → List CompletionItem
  | [], _ => []
  | id :: ms, seen =>
    if seen.contains id then idCompletionLoop fileName ms seen
    else { label := id, kind := .reference, detail := some fileName } ::
      idCompletionLoop fileName ms (id :: seen)

/-- `ControllerCompletionItemProvider.getIdCompletions`.  `none` models a
rejected promise (the related view exists as a path but cannot be opened). -/
def getIdCompletions (env : Env) : Option (List CompletionItem) :=
  match env.relatedXml with
  | none => some []
  | some relatedFile =>
    let fileName := ((splitOnChar '/' relatedFile).getLastD "")
    match env.openDocument relatedFile with
    | none => none
    | some text => some (idCompletionLoop fileName (idMatchValues text) [])

/-- The tag-name resolution shared by `getMethodAndPropertyCompletions` and
`getEventNameCompletions`: find the first `id=["']id["']` occurrence in the
view, and match `/<([a-zA-Z][-a-zA-Z]*)(?:\s|$)/` against that line's prefix. -/
def closestTagName (id text : String) : Option String :=
  match reSearchFrom (idAttrRE id) text.data 0 with
  | some (st, _, _) => jsMatchGroup reTagName (textLinePrefix text (positionAt text st)) 1
  | none => none

/-- `ControllerCompletionItemProvider.getMethodAndPropertyCompletions`.
`none` models a thrown exception: the non-null assertion on
`linePrefix.match(...)!` or a rejected `openTextDocument`. -/
def getMethodAndPropertyCompletions (env : Env) (lp : String) : Option (List CompletionItem) :=
  match jsMatchGroup reMethodId lp 1 with
  | none => none
  | some id =>
    match env.relatedXml with
    | none => some []
    | some relatedFile =>
      match env.openDocument relatedFile with
      | none => none
      | some text =>
        match closestTagName id text with
        | some tagName =>
          match env.alloyTags.lookup tagName with
          | some apiName =>
            match env.titaniumTypes.lookup apiName with
            | some tagObj =>
              some ((tagObj.functions.map (fun v =>
                  { label := v, kind := .method, insertText := some (v ++ "($1)$0") }))
                ++ (tagObj.properties.map (fun v =>
                  { label := v, kind := .property, insertText := some (v ++ " = $1$0") })))
            | none => some []
          | none => some []
        | none => some []

/-- Is the typed attribute fragment absent or empty
(JavaScript `!attribute || attribute.length === 0`)? -/
def attrIsEmpty : Option String → Bool
  | none => true
  | some a => strIsEmpty a

/-- The api-name/attribute resolution of `getTitaniumApiCompletions`
(lines 170–185): match `reTiMatch`, strip a trailing dot from the api name
and merge a partial `iOS`/`iPad` attribute into it. -/
def tiApiResolve (lp : String) : Option (String × Option String) :=
  match reSearchFrom reTiMatch lp.data 0 with
  | none => none
  | some (_, _, caps) =>
    let apiName0 := (caps.lookup 1).getD ""
    let apiName :=
      if jsLastIndexOfChar apiName0 '.' = (apiName0.length : Int) - 1
      then strDropRight apiName0 1 else apiName0
    match caps.lookup 2 with
    | some attr =>
      if !strIsEmpty attr && (jsIndexOfStr "iOS" attr = 0 || jsIndexOfStr "iPad" attr = 0)
      then some (apiName ++ "." ++ attr, none)
      else some (apiName, some attr)
    | none => some (apiName, none)

/-- The class item pushed for a catalog key (label, kind `Class`, insert
text = last dot-separated section of the key). -/
def mkClassItem (key : String) : CompletionItem :=
  { label := key, kind := .classKind, insertText := some ((splitOnChar '.' key).getLastD "") }

/-- The function/property items of a catalog type, filtered by the typed
attribute fragment and the `deprecated` substring test. -/
def memberItems (matchesFn : String → String → Bool) (attrFrag : Option String)
    (apiObj : TiType) : List CompletionItem :=
  ((apiObj.functions.filter (fun f =>
      (match attrFrag with
       | none => true
       | some a => strIsEmpty a || matchesFn f a)
      && jsIndexOfStr f "deprecated" = -1)).map (fun f =>
    { label := f, kind := .method }))
  ++ ((apiObj.properties.filter (fun p =>
      (match attrFrag with
       | none => true
       | some a => strIsEmpty a || matchesFn p a)
      && jsIndexOfStr p "deprecated" = -1)).map (fun p =>
    { label := p, kind := .property }))

/-- The class items of `getTitaniumApiCompletions`/`getAlloyApiCompletions`:
catalog keys beginning with the api name and containing no underscore, in
catalog order. -/
def classItems (types : List (String × TiType)) (apiName : String) : List CompletionItem :=
  (types.filter (fun kv => jsIndexOfStr kv.1 apiName = 0 && jsIndexOfStr kv.1 "_" = -1)).map
    (fun kv => mkClassItem kv.1)

/-- `ControllerCompletionItemProvider.getTitaniumApiCompletions`. -/
def getTitaniumApiCompletions (env : Env) (lp : String) : List CompletionItem :=
  match tiApiResolve lp with
  | none => []
  | some (apiName, attrFrag) =>
    if strIsEmpty apiName then [] else
    (if attrIsEmpty attrFrag then classItems env.titaniumTypes apiName else [])
    ++ (match env.titaniumTypes.lookup apiName with
        | some apiObj => memberItems env.matchesFn attrFrag apiObj
        | none => [])

/-- The api-name/attribute resolution of `getAlloyApiCompletions`
(no `iOS`/`iPad` merging there). -/
def alloyApiResolve (lp : String) : Option (String × Option String) :=
  match reSearchFrom reAlloyMatch lp.data 0 with
  | none => none
  | some (_, _, caps) =>
    let apiName0 := (caps.lookup 1).getD ""
    let apiName :=
      if jsLastIndexOfChar apiName0 '.' = (apiName0.length : Int) - 1
      then strDropRight apiName0 1 else apiName0
    some (apiName, caps.lookup 2)

/-- `ControllerCompletionItemProvider.getAlloyApiCompletions`. -/
def getAlloyApiCompletions (env : Env) (lp : String) : List CompletionItem :=
  match alloyApiResolve lp with
  | none => []
  | some (apiName, attrFrag) =>
    if strIsEmpty apiName then [] else
    (if attrIsEmpty attrFrag then classItems env.alloyTypes apiName else [])
    ++ (match env.alloyTypes.lookup apiName with
        | some apiObj => memberItems env.matchesFn attrFrag apiObj
        | none => [])

/-- `ControllerCompletionItemProvider.getEventNameCompletions`.  Note the
source sets `tagName = matches[1]` — the Alloy id — where the sibling
function `getMethodAndPropertyCompletions` uses `closestId[1]`, the view's
tag name; the embedding reproduces that.  `none` models a thrown exception
(rejected `openTextDocument`, or the unguarded `tagObj.events` dereference
when `types[apiName]` is absent). -/
def getEventNameCompletions (env : Env) (lp : String) : Option (List CompletionItem) :=
  match reSearchFrom reEvent lp.data 0 with
  | none => some []
  | some (_, _, caps) =>
    let id := (caps.lookup 1).getD ""
    match env.relatedXml with
    | none => some []
    | some relatedFile =>
      match env.openDocument relatedFile with
      | none => none
      | some text =>
        let tagName : Option String :=
          match closestTagName id text with
          | some _ => some id
          | none => none
        match tagName with
        | some tn =>
          match env.alloyTags.lookup tn with
          | some apiName =>
            match env.titaniumTypes.lookup apiName with
            | some tagObj =>
              some (tagObj.events.map (fun e =>
                { label := e, kind := .event, detail := some apiName }))
            | none => none
          | none => some []
        | none => some []

/-- `path.posix.relative(base, p)` as used here: every file handed in lies
below `base`, so the relative path is `p` with the `base/` prefix removed. -/
def pathPosixRelative (base p : String) : String :=
  if isPrefixL (base ++ "/").data p.data then strDrop p (base.length + 1) else p

/-- `ControllerCompletionItemProvider.getFileCompletions`.  The
`moduleName.substring(0)` normalization of the source is the identity and
`moduleName` is otherwise unused, so it does not appear. -/
def getFileCompletions (env : Env) (directory : String) (range : Option Rng) :
    List CompletionItem :=
  let filesPath := env.alloyRootPath ++ "/" ++ directory
  if env.directoryExists filesPath then
    (env.jsFiles filesPath).map (fun file =>
      { label := "/" ++ jsReplaceFirst (pathPosixRelative filesPath file) ".js" "",
        kind := .reference, range := range })
  else []

/-- `ControllerCompletionItemProvider.getWidgetCompletions`. -/
def getWidgetCompletions (env : Env) : Option (List CompletionItem) :=
  match env.widgetDependencies with
  | none => none
  | some deps => some (deps.map (fun w => { label := w, kind := .reference }))

/-- The `alloyAutoCompleteRules` loop and the final default of
`provideCompletionItems`. -/
def runAlloyRules (env : Env) (doc : Document) (p : Pos) (lp : String) :
    Option (List CompletionItem) :=
  match env.rules.find? (fun r => r.test lp) with
  | some rule =>
    if rule.requireRange then rule.getCompletions (env.wordRangeAt doc p rule.rangeRegex)
    else rule.getCompletions none
  | none => some [{ label := "Ti", kind := .classKind }]

/-- `ControllerCompletionItemProvider.provideCompletionItems`: the regex
cascade over the caret line's prefix.  The completion catalog is part of
`env` (the source lazily loads it once). -/
def provideCompletionItems (env : Env) (doc : Document) (p : Pos) :
    Option (List CompletionItem) :=
  let lp := linePrefixAt doc p
  if reTest reIdOnly lp then getIdCompletions env
  else if reTest reIdMember lp then getMethodAndPropertyCompletions env lp
  else if reTest reTiTest lp then some (getTitaniumApiCompletions env lp)
  else if reTest reEvent lp then getEventNameCompletions env lp
  else if reTest reRequire lp then
    some (getFileCompletions env "lib" (env.wordRangeAt doc p reRequireWord))
  else if reTest reCreateController lp then some (getFileCompletions env "controllers" none)
  else if reTest reCreateModel lp then some (getFileCompletions env "models" none)
  else if reTest reCreateWidget lp then getWidgetCompletions env
  else if reTest reAlloyTest lp then some (getAlloyApiCompletions env lp)
  else runAlloyRules env doc p lp

/-! ## Quoted-value extraction of the definition/hover providers
(src/unnamed/part_001) -/

/-- The indices of the line's quote characters (the `/['"]/g` matches of
`provideHover`/`provideDefinition`), in increasing order. -/
def quoteIndices (line : String) : List Nat :=
  (List.range line.length).filter (fun i => quoteChar (line.data.getD i ' '))

/-- The exec loop of `provideHover`/`provideDefinition`: every quote index
below the caret column overwrites `startIndex`, the first one above it sets
`endIndex` and breaks, and a quote exactly at the caret column is skipped. -/
def quoteScan (ch : Nat) : List Nat → Nat × Nat → Nat × Nat
  | [], acc => acc
  | i :: rest, (s, e) =>
    if i < ch then quoteScan ch rest (i, e)
    else if ch < i then (s, i)
    else quoteScan ch rest (s, e)

/-- `startIndex`/`endIndex` after the loop (initial values `0` and the caret
column). -/
def quoteBounds (line : String) (ch : Nat) : Nat × Nat :=
  quoteScan ch (quoteIndices line) (0, ch)

/-- The extracted value:
`(startIndex && endIndex) ? line.substring(startIndex + 1, endIndex) : null`.
JavaScript truthiness makes both bounds `≠ 0` the guard. -/
def extractQuotedValue (line : String) (ch : Nat) : Option String :=
  let (s, e) := quoteBounds line ch
  if s ≠ 0 && e ≠ 0 then some (sliceStr line.data (s + 1) e) else none

/-- `provideHover`'s value (`if (!value || value.length === 0) return;`). -/
def hoverValue (line : String) (ch : Nat) : Option String :=
  match extractQuotedValue line ch with
  | some v => if strIsEmpty v then none else some v
  | none => none

/-- `provideDefinition`'s value (`''` when no quoted value is found). -/
def definitionValue (line : String) (ch : Nat) : String :=
  (extractQuotedValue line ch).getD ""

/-- The index of the last quote strictly before the caret column. -/
def lastQuoteBefore (line : String) (ch : Nat) : Option Nat :=
  ((quoteIndices line).filter (fun i => i < ch)).getLast?

/-- The index of the first quote strictly after the caret column. -/
def firstQuoteAfter (line : String) (ch : Nat) : Option Nat :=
  ((quoteIndices line).filter (fun i => ch < i)).head?

/-- The extraction as the specification describes it: the substring strictly
between the last quote before the caret column and the first quote after it,
and no value when the caret does not lie between such a pair of quotes. -/
def specQuoteExtract (line : String) (ch : Nat) : Option String :=
  match lastQuoteBefore line ch, firstQuoteAfter line ch with
  | some s, some e => some (sliceStr line.data (s + 1) e)
  | _, _ => none

/-! ## `getReferences` (src/unnamed/part_001, lines 105–130) -/

/-- The range `getReferences` hands to its callback:
`new Range(position.line, position.character, position.line, 0)`. -/
def refRange (p : Pos) : Rng := ⟨p.line, p.character, p.line, 0⟩

/-- JavaScript `RegExp.prototype.exec` with its `lastIndex` state: a global
regex searches from `lastIndex` (failing outright when `lastIndex` exceeds
the subject's length), advances `lastIndex` to the match end on success and
resets it to 0 on failure; a non-global regex always searches from 0 and
never touches `lastIndex`.  Returns the match start and the match array,
plus the new `lastIndex`. -/
def jsExec (re : RE) (g : Bool) (s : String) (li : Nat) :
    Option (Nat × List (Option String)) × Nat :=
  if g then
    if s.length < li then (none, 0)
    else
      match reSearchFrom re s.data li with
      | none => (none, 0)
      | some (st, en, caps) => (some (st, matchArray re s.data st en caps), en)
  else
    match reSearchFrom re s.data 0 with
    | none => (none, li)
    | some (st, en, caps) => (some (st, matchArray re s.data st en caps), li)

/-- The file loop of `getReferences`, threading the shared regex's
`lastIndex`.  A file that cannot be opened is skipped; a file with non-empty
text is searched once, and on success the callback result is pushed once per
element of the match array (`for (const match of matches)`), all with the
position of the match start. -/
def getReferencesFrom {T : Type} (fs : String → Option String) (re : RE) (g : Bool)
    (cb : String → Rng → T) : List String → Nat → List T
  | [], _ => []
  | file :: rest, li =>
    match fs file with
    | none => getReferencesFrom fs re g cb rest li
    | some text =>
      if text.length > 0 then
        match jsExec re g text li with
        | (none, li') => getReferencesFrom fs re g cb rest li'
        | (some (st, arr), li') =>
          (arr.map (fun _ => cb file (refRange (positionAt text st))))
            ++ getReferencesFrom fs re g cb rest li'
      else getReferencesFrom fs re g cb rest li

/-- `getReferences` (the `files` argument is a list; the source wraps a
single string into one first). -/
def getReferences {T : Type} (fs : String → Option String) (re : RE) (g : Bool)
    (cb : String → Rng → T) (files : List String) : List T :=
  getReferencesFrom fs re g cb files 0

/-! ## `insertI18nString` (src/unnamed/part_001, lines 264–285) -/

/-- The i18n configuration: the default language
(`ExtensionContainer.config.project.defaultI18nLanguage`) and the i18n root
(`utils.getI18nPath()`, whose module is not among the sources; `none` models
its undefined result). -/
structure I18nConfig where
  defaultLang : String
  i18nPath : Option String

/-- A file system as an association of paths to contents (latest write
first). -/
abbrev FileSystem := List (String × String)

/-- `utils.fileExists`. -/
def fileExists (fs : FileSystem) (p : String) : Bool := (fs.lookup p).isSome

/-- `fs.writeFileSync` / applying a workspace edit. -/
def writeFile (fs : FileSystem) (p contents : String) : FileSystem := (p, contents) :: fs

/-- Reading a document's text. -/
def readFile (fs : FileSystem) (p : String) : Option String := fs.lookup p

/-- The skeleton written when the default-language `strings.xml` is absent. -/
def i18nSkeleton : String :=
  "<?xml version=\"1.0\" encoding=\"UTF-8\"?>\n<resources>\n</resources>"

/-- `insertI18nString`: ensure the default-language `strings.xml` exists,
then insert `\t<string name="…"></string>\n` at the index of the first
`</resources>` occurrence (the workspace edit inserts at
`document.positionAt(index)`, i.e. at that character index); when the tag is
absent, no edit is applied. -/
def insertI18nString (cfg : I18nConfig) (fs : FileSystem) (text : String) : FileSystem :=
  match cfg.i18nPath with
  | none => fs
  | some i18nPath =>
    let i18nStringPath := i18nPath ++ "/" ++ cfg.defaultLang ++ "/strings.xml"
    let fs1 := if fileExists fs i18nStringPath then fs
      else writeFile fs i18nStringPath i18nSkeleton
    match readFile fs1 i18nStringPath with
    | none => fs1
    | some contents =>
      let insertText := "\t<string name=\"" ++ text ++ "\"></string>\n"
      match strFindIdx contents "</resources>" with
      | none => fs1
      | some index =>
        writeFile fs1 i18nStringPath
          (sliceStr contents.data 0 index ++ insertText ++ ((contents.data.drop index).asString))

/-! ## `installUpdates` (src/src/extension.ts, lines 612–663) -/

/-- The metadata of a rejected update action (`error.metadata`). -/
structure FailureMeta where
  errorCode : String
  command : String
deriving DecidableEq, Repr

/-- One entry of `updateInfo`.  `succeeds` records whether
`update.action(update.latestVersion)` resolves, and `errorMetadata` the
`error.metadata` of a rejection. -/
structure UpdateChoice where
  label? : Option String
  productName : String
  latestVersion : String
  priority : Int
  succeeds : Bool
  errorMetadata : Option FailureMeta
deriving DecidableEq, Repr

/-- The observable progress/UI effects of `installUpdates`, in order. -/
inductive ProgressEvent where
  | installing (label : String) (counter total : Nat)
  | installed (label : String) (counter total : Nat)
  | failed (label : String) (counter total : Nat)
  | increment (total : Nat)
  | sudoPrompt (command : String)
  | errorDialog (label : String)
deriving DecidableEq, Repr

/-- `updates.ProductNames.AppcInstaller` — a constant of the separately
maintained `titanium-editor-commons` package (not among the sources); its
exact text plays no role in the claims about this function. -/
def appcInstallerProductName : String := "AppcInstaller"

/-- `` (update as UpdateChoice).label || `${productName}: ${latestVersion}` ``
(JavaScript `||`, so an empty label also falls back). -/
def updateLabel (u : UpdateChoice) : String :=
  match u.label? with
  | some l => if strIsEmpty l then u.productName ++ ": " ++ u.latestVersion else l
  | none => u.productName ++ ": " ++ u.latestVersion

/-- The progress events of one loop iteration of `installUpdates`. -/
def updateEvents (total : Nat) (incrementProgress : Bool) (counter : Nat)
    (u : UpdateChoice) : List ProgressEvent :=
  let label := updateLabel u
  .installing label counter total ::
    (if u.succeeds then
      [.installed label counter total]
        ++ (if incrementProgress then [.increment total] else [])
    else
      [.failed label counter total]
        ++ (if incrementProgress then [.increment total] else [])
        ++ (match u.errorMetadata with
            | some meta =>
              if u.productName = appcInstallerProductName && meta.errorCode = "EACCES"
              then [.sudoPrompt meta.command] else []
            | none => [.errorDialog label]))

/-- The ordering realized by the comparator
`(curr, prev) => curr.priority - prev.priority`. -/
def updateLE (a b : UpdateChoice) : Prop := a.priority ≤ b.priority

instance : DecidableRel updateLE :=
  fun a b => inferInstanceAs (Decidable (a.priority ≤ b.priority))

instance : IsTotal UpdateChoice updateLE :=
  ⟨fun a b => Int.le_total a.priority b.priority⟩

instance : IsTrans UpdateChoice updateLE :=
  ⟨fun _ _ _ h1 h2 => le_trans h1 h2⟩

/-- `updateInfo.sort((curr, prev) => curr.priority - prev.priority)`: a
stable ascending sort by `priority` (ECMAScript `Array.prototype.sort` is
required to be stable and this comparator is consistent). -/
def sortUpdates (l : List UpdateChoice) : List UpdateChoice :=
  List.insertionSort updateLE l

/-- The `for … of` loop of `installUpdates`, threading the 1-based counter. -/
def installUpdatesGo (total : Nat) (inc : Bool) :
    List UpdateChoice → Nat → List ProgressEvent
  | [], _ => []
  | u :: us, counter =>
    updateEvents total inc counter u ++ installUpdatesGo total inc us (counter + 1)

/-- `installUpdates`: sort by priority, then process sequentially with a
counter starting at 1; `totalUpdates` is the length of the list. -/
def installUpdates (updateInfo : List UpdateChoice) (inc : Bool) : List ProgressEvent :=
  installUpdatesGo updateInfo.length inc (sortUpdates updateInfo) 1

/-- Is an event the per-update progress increment? -/
def isIncrementEvent : ProgressEvent → Bool
  | .increment _ => true
  | _ => false

/-- Is an event the "Installing …" report that opens an update's iteration? -/
def isInstallingEvent : ProgressEvent → Bool
  | .installing _ _ _ => true
  | _ => false

/-! ## The branch structure of the completion cascade -/

/-- The handlers `provideCompletionItems` can delegate to, one per branch of
its `if`/`else` chain; `fallback` is the `alloyAutoCompleteRules` loop with
its final `[{ label: 'Ti', kind: Class }]` default. -/
inductive CompletionBranch where
  | idCompletion | methodAndProperty | titaniumApi | eventName | requireModule
  | createController | createModel | createWidget | alloyApi | fallback
deriving DecidableEq, Repr

/-- The fixed, ordered regex cascade of `provideCompletionItems`
(lines 34–61 of the provider), in source order. -/
def completionCascade : List (RE × CompletionBranch) :=
  [(reIdOnly, .idCompletion), (reIdMember, .methodAndProperty), (reTiTest, .titaniumApi),
   (reEvent, .eventName), (reRequire, .requireModule),
   (reCreateController, .createController), (reCreateModel, .createModel),
   (reCreateWidget, .createWidget), (reAlloyTest, .alloyApi)]

/-- The branch of the first pattern in the cascade matching the line prefix
(`fallback` when none does). -/
def firstMatchingBranch : List (RE × CompletionBranch) → String → CompletionBranch
  | [], _ => .fallback
  | (r, b) :: rest, lp => if reTest r lp then b else firstMatchingBranch rest lp

/-- The handler each branch delegates to. -/
def branchHandler (env : Env) (doc : Document) (p : Pos) :
    CompletionBranch → Option (List CompletionItem)
  | .idCompletion => getIdCompletions env
  | .methodAndProperty => getMethodAndPropertyCompletions env (linePrefixAt doc p)
  | .titaniumApi => some (getTitaniumApiCompletions env (linePrefixAt doc p))
  | .eventName => getEventNameCompletions env (linePrefixAt doc p)
  | .requireModule => some (getFileCompletions env "lib" (env.wordRangeAt doc p reRequireWord))
  | .createController => some (getFileCompletions env "controllers" none)
  | .createModel => some (getFileCompletions env "models" none)
  | .createWidget => getWidgetCompletions env
  | .alloyApi => some (getAlloyApiCompletions env (linePrefixAt doc p))
  | .fallback => runAlloyRules env doc p (linePrefixAt doc p)

/-! ## Claim-side (specification-worded) definitions -/

/-- Claim side of C4(a): one class completion per catalog type key that
starts with the resolved api name and contains no underscore character, in
catalog enumeration order. -/
def specClassItems (types : List (String × TiType)) (apiName : String) : List CompletionItem :=
  (types.filter (fun kv => decide (apiName.data <+: kv.1.data) && !decide ('_' ∈ kv.1.data))).map
    (fun kv => mkClassItem kv.1)

/-- Claim side of C4(b): the functions and properties of the resolved type
whose names match the typed attribute fragment and do not contain the
substring "deprecated", in the catalog's enumeration order. -/
def specMemberItems (matchesFn : String → String → Bool) (attrFrag : Option String)
    (apiObj : TiType) : List CompletionItem :=
  ((apiObj.functions.filter (fun f =>
      (attrIsEmpty attrFrag || matchesFn f (attrFrag.getD ""))
        && !decide (("deprecated" : String).data <:+: f.data))).map (fun f =>
    { label := f, kind := .method }))
  ++ ((apiObj.properties.filter (fun p =>
      (attrIsEmpty attrFrag || matchesFn p (attrFrag.getD ""))
        && !decide (("deprecated" : String).data <:+: p.data))).map (fun p =>
    { label := p, kind := .property }))

/-- The default-language strings file path `i18nPath/defaultLang/strings.xml`. -/
def stringsPath (p lang : String) : String := p ++ "/" ++ lang ++ "/strings.xml"

/-- The text `insertI18nString` operates on: the existing file, or the
skeleton it just created. -/
def i18nBase (fs : FileSystem) (path : String) : String :=
  (readFile fs path).getD i18nSkeleton

/-- Claim side of C10: the new `<string name="…">` element is inserted
immediately before the first `</resources>` occurrence, and the text is
unchanged when that tag is absent. -/
def specI18nResult (base text : String) : String :=
  match strFindIdx base "</resources>" with
  | some i =>
    sliceStr base.data 0 i ++ ("\t<string name=\"" ++ text ++ "\"></string>\n")
      ++ ((base.data.drop i).asString)
  | none => base

/-! ## Concrete environments and inputs used by witnesses and
counterexamples -/

/-- The view text of the witness project. -/
def xmlA : String :=
  "<Alloy>\n\t<TableView id=\"myTable\"/>\n\t<Label id=\"lab\"/>\n\t<Label id=\"lab\"/>\n</Alloy>"

/-- A small concrete environment: a view with a duplicated id, a catalog
with an underscore-containing key and a deprecated-named function, and no
auto-complete rules. -/
def envA : Env :=
  { alloyTags := [("TableView", "Ti.UI.TableView"), ("Label", "Ti.UI.Label")]
    titaniumTypes :=
      [("Ti.UI", ⟨["createWindow", "createdeprecatedX"], ["currentTab"], []⟩),
       ("Ti.UI.TableView", ⟨["appendRow"], ["data"], ["click", "scroll"]⟩),
       ("Ti.UI._Hidden", ⟨[], [], []⟩)]
    alloyTypes := [("Alloy.Models", ⟨["instance"], [], []⟩)]
    matchesFn := fun f a => isPrefixL a.data f.data
    relatedXml := some "app/views/index.xml"
    openDocument := fun p => if p = "app/views/index.xml" then some xmlA else none
    wordRangeAt := fun _ _ _ => none
    rules := []
    alloyRootPath := "app"
    directoryExists := fun _ => false
    jsFiles := fun _ => []
    widgetDependencies := some ["w1"] }

/-- The view text exhibiting the event-name bug. -/
def xmlB : String := "<TableView id=\"myTable\"/>"

/-- The Titanium type of the view's `TableView` in the bug exhibit. -/
def tableViewType : TiType := ⟨["appendRow"], ["data"], ["click", "scroll"]⟩

/-- A minimal environment for the event-name claim: the view declares
`id="myTable"` on a `TableView`, and the catalog knows `TableView`. -/
def envB : Env :=
  { alloyTags := [("TableView", "Ti.UI.TableView")]
    titaniumTypes := [("Ti.UI.TableView", tableViewType)]
    alloyTypes := []
    matchesFn := fun _ _ => true
    relatedXml := some "index.xml"
    openDocument := fun p => if p = "index.xml" then some xmlB else none
    wordRangeAt := fun _ _ _ => none
    rules := []
    alloyRootPath := "app"
    directoryExists := fun _ => false
    jsFiles := fun _ => []
    widgetDependencies := none }

/-- The file system of the reference-search counterexample: two openable
files, both with text `"a"`. -/
def fsC5 : String → Option String :=
  fun f => if f = "f1" || f = "f2" then some "a" else none

/-- The id completions of `envA`'s view (witness value). -/
def idItemsA : List CompletionItem :=
  [{ label := "myTable", kind := .reference, detail := some "index.xml" },
   { label := "lab", kind := .reference, detail := some "index.xml" }]

/-! # Theorems -/

/-- The `if`/`else` chain of `provideCompletionItems` is exactly first-match
dispatch over the ordered cascade. -/
theorem dispatch_eq_firstMatch (env : Env) (doc : Document) (p : Pos) :
    provideCompletionItems env doc p =
      branchHandler env doc p (firstMatchingBranch completionCascade (linePrefixAt doc p)) := by
  simp only [provideCompletionItems, completionCascade, firstMatchingBranch]
  by_cases h1 : reTest reIdOnly (linePrefixAt doc p) <;> simp only [h1, if_true, if_false]
  case pos => rfl
  by_cases h2 : reTest reIdMember (linePrefixAt doc p) <;> simp only [h2, if_true, if_false]
  case pos => rfl
  by_cases h3 : reTest reTiTest (linePrefixAt doc p) <;> simp only [h3, if_true, if_false]
  case pos => rfl
  by_cases h4 : reTest reEvent (linePrefixAt doc p) <;> simp only [h4, if_true, if_false]
  case pos => rfl
  by_cases h5 : reTest reRequire (linePrefixAt doc p) <;> simp only [h5, if_true, if_false]
  case pos => rfl
  by_cases h6 : reTest reCreateController (linePrefixAt doc p) <;>
    simp only [h6, if_true, if_false]
  case pos => rfl
  by_cases h7 : reTest reCreateModel (linePrefixAt doc p) <;> simp only [h7, if_true, if_false]
  case pos => rfl
  by_cases h8 : reTest reCreateWidget (linePrefixAt doc p) <;> simp only [h8, if_true, if_false]
  case pos => rfl
  by_cases h9 : reTest reAlloyTest (linePrefixAt doc p) <;> simp only [h9, if_true, if_false]
  case pos => rfl
  rfl

/-- C1: for every document and cursor position,
`ControllerCompletionItemProvider.provideCompletionItems` classifies the
cursor context by testing the line prefix (the caret line's text before the
caret column) against the fixed, ordered regex cascade and delegates to the
handler of the first pattern that matches; once a pattern matches, no later
pattern of the cascade is consulted (the result is `branchHandler` applied
to the branch of the first matching pattern, and `firstMatchingBranch`
inspects no pattern after the first match). -/
theorem c1_cascade_first_match_dispatch (env : Env) (doc : Document) (p : Pos) :
    provideCompletionItems env doc p =
      branchHandler env doc p (firstMatchingBranch completionCascade (linePrefixAt doc p))
    ∧ ∀ (r : RE) (b : CompletionBranch) (rest : List (RE × CompletionBranch)) (lp : String),
        reTest r lp = true → firstMatchingBranch ((r, b) :: rest) lp = b := by
  refine ⟨dispatch_eq_firstMatch env doc p, ?_⟩
  intro r b rest lp h
  simp [firstMatchingBranch, h]

/-- C1 witness at a concrete document: the prefix `"$.myTab"` selects the id
branch, and a matching head pattern short-circuits the cascade. -/
theorem c1_witness :
    provideCompletionItems envA ["$.myTab"] ⟨0, 7⟩ =
      branchHandler envA ["$.myTab"] ⟨0, 7⟩
        (firstMatchingBranch completionCascade (linePrefixAt ["$.myTab"] ⟨0, 7⟩))
    ∧ firstMatchingBranch ((reIdOnly, .idCompletion) :: []) "$.myTab" = .idCompletion :=
  ⟨(c1_cascade_first_match_dispatch envA ["$.myTab"] ⟨0, 7⟩).1,
   (c1_cascade_first_match_dispatch envA ["$.myTab"] ⟨0, 7⟩).2 reIdOnly .idCompletion []
     "$.myTab" (by decide)⟩

/-- C7: the selected branch of the cascade is a pure function of the line
prefix — two requests whose line prefixes coincide select the same branch,
whatever the rest of the documents contain (and `provideCompletionItems`'s
result really is driven by that branch); the embedding's regex test carries
no state between invocations. -/
theorem c7_classification_pure (env : Env) (d1 d2 : Document) (p1 p2 : Pos)
    (h : linePrefixAt d1 p1 = linePrefixAt d2 p2) :
    firstMatchingBranch completionCascade (linePrefixAt d1 p1) =
      firstMatchingBranch completionCascade (linePrefixAt d2 p2)
    ∧ provideCompletionItems env d1 p1 =
        branchHandler env d1 p1 (firstMatchingBranch completionCascade (linePrefixAt d1 p1)) :=
  ⟨by rw [h], dispatch_eq_firstMatch env d1 p1⟩

/-- C7 witness: two different documents with the same line prefix `"$.x"`
(in different positions and with different surrounding content) select the
same branch. -/
theorem c7_witness :
    firstMatchingBranch completionCascade (linePrefixAt ["$.x"] ⟨0, 3⟩) =
      firstMatchingBranch completionCascade (linePrefixAt ["abc", "$.xyz"] ⟨1, 3⟩) :=
  (c7_classification_pure envA ["$.x"] ["abc", "$.xyz"] ⟨0, 3⟩ ⟨1, 3⟩ (by decide)).1

/-- C8: when no cascade pattern and no Alloy auto-complete rule matches the
line prefix, `provideCompletionItems` returns exactly the single completion
item labelled `Ti` of kind `Class`. -/
theorem c8_default_ti_item (env : Env) (doc : Document) (p : Pos)
    (hcascade : completionCascade.all (fun rb => !reTest rb.1 (linePrefixAt doc p)) = true)
    (hrules : env.rules.all (fun r => !r.test (linePrefixAt doc p)) = true) :
    provideCompletionItems env doc p = some [{ label := "Ti", kind := .classKind }] := by
  have hd := dispatch_eq_firstMatch env doc p
  simp only [completionCascade, List.all_cons, List.all_nil, Bool.and_eq_true,
    Bool.not_eq_true', and_true] at hcascade
  obtain ⟨h1, h2, h3, h4, h5, h6, h7, h8, h9⟩ := hcascade
  have hfind : env.rules.find? (fun r => r.test (linePrefixAt doc p)) = none := by
    rw [List.find?_eq_none]
    intro r hr
    have := List.all_eq_true.mp hrules r hr
    simpa using this
  rw [hd]
  simp [completionCascade, firstMatchingBranch, h1, h2, h3, h4, h5, h6, h7, h8, h9,
    branchHandler, runAlloyRules, hfind]

/-- C8 witness: on the line `"xy"` (no pattern of the cascade matches, and
`envA` has no rules) the provider returns the lone `Ti` class item. -/
theorem c8_witness :
    provideCompletionItems envA ["xy"] ⟨0, 2⟩ =
      some [{ label := "Ti", kind := .classKind }] :=
  c8_default_ti_item envA ["xy"] ⟨0, 2⟩ (by decide) (by decide)

/-- C2: evaluation of `getEventNameCompletions` at the failing input.  The
view resolves `myTable` to the tag `TableView` (as `closestTagName` shows —
the very value the source computes into `closestId` and then discards), the
catalog maps `TableView` to `Ti.UI.TableView` whose events are non-empty,
yet the function returns no completions because the source assigns
`tagName = matches[1]` (the id) and looks up `myTable` in the tag catalog. -/
theorem c2_eventname_bug :
    getEventNameCompletions envB "$.myTable.addEventListener('" = some []
    ∧ closestTagName "myTable" xmlB = some "TableView"
    ∧ envB.alloyTags.lookup "TableView" = some "Ti.UI.TableView"
    ∧ envB.titaniumTypes.lookup "Ti.UI.TableView" = some tableViewType
    ∧ tableViewType.events = ["click", "scroll"]
    ∧ envB.alloyTags.lookup "myTable" = none := by
  refine ⟨by decide, by decide, by decide, by decide, by decide, by decide⟩

/-- The labels produced by the push-unless-seen loop of `getIdCompletions`
are exactly the scanned values not already seen. -/
theorem idCompletionLoop_label_mem (fn : String) (ms : List String) :
    ∀ (seen : List String) (s : String),
      s ∈ (idCompletionLoop fn ms seen).map CompletionItem.label ↔ s ∈ ms ∧ s ∉ seen := by
  induction ms with
  | nil => intro seen s; simp [idCompletionLoop]
  | cons m ms ih =>
    intro seen s
    by_cases hm : m ∈ seen
    · rw [idCompletionLoop, if_pos (by simpa using hm), ih]
      constructor
      · rintro ⟨h1, h2⟩
        exact ⟨List.mem_cons_of_mem _ h1, h2⟩
      · rintro ⟨h1, h2⟩
        rcases List.mem_cons.mp h1 with rfl | h1
        · exact absurd hm h2
        · exact ⟨h1, h2⟩
    · rw [idCompletionLoop, if_neg (by simpa using hm)]
      simp only [List.map_cons, List.mem_cons, ih]
      constructor
      · rintro (rfl | ⟨h1, h2⟩)
        · exact ⟨Or.inl rfl, hm⟩
        · exact ⟨Or.inr h1, fun hs => h2 (Or.inr hs)⟩
      · rintro ⟨h1, h2⟩
        rcases h1 with rfl | h1
        · exact Or.inl rfl
        · by_cases hsm : s = m
          · exact Or.inl hsm
          · exact Or.inr ⟨h1, fun hs => hs.elim hsm h2⟩

/-- The labels produced by the loop are duplicate-free. -/
theorem idCompletionLoop_label_nodup (fn : String) (ms : List String) :
    ∀ seen, ((idCompletionLoop fn ms seen).map CompletionItem.label).Nodup := by
  induction ms with
  | nil => intro seen; simp [idCompletionLoop]
  | cons m ms ih =>
    intro seen
    by_cases hm : m ∈ seen
    · rw [idCompletionLoop, if_pos (by simpa using hm)]
      exact ih seen
    · rw [idCompletionLoop, if_neg (by simpa using hm)]
      simp only [List.map_cons]
      rw [List.nodup_cons]
      refine ⟨fun hmem => ?_, ih (m :: seen)⟩
      exact ((idCompletionLoop_label_mem fn ms (m :: seen) m).mp hmem).2
        (List.mem_cons_self _ _)

/-- C3: for any completion request, `getIdCompletions` returns the empty
list when no related view file can be determined, and otherwise one
completion item per distinct value of an `id="…"` attribute occurring in
the view's text (duplicates collapse), each item labelled with that id. -/
theorem c3_id_completions (env : Env) (f text : String) (items : List CompletionItem) :
    (env.relatedXml = none → getIdCompletions env = some [])
    ∧ (env.relatedXml = some f → env.openDocument f = some text →
        getIdCompletions env = some items →
        (items.map CompletionItem.label).Nodup
        ∧ ∀ s, s ∈ items.map CompletionItem.label ↔ s ∈ idMatchValues text) := by
  constructor
  · intro h
    simp only [getIdCompletions, h]
  · intro h1 h2 h3
    simp only [getIdCompletions, h1, h2] at h3
    obtain rfl := (Option.some.inj h3).symm
    refine ⟨idCompletionLoop_label_nodup _ _ _, fun s => ?_⟩
    rw [idCompletionLoop_label_mem]
    simp

/-- C3 witness on `envA`'s view (ids `myTable`, `lab`, `lab`): the labels
are duplicate-free and contain exactly the scanned values. -/
theorem c3_witness :
    (idItemsA.map CompletionItem.label).Nodup
    ∧ ("myTable" ∈ idItemsA.map CompletionItem.label ↔ "myTable" ∈ idMatchValues xmlA) := by
  have h := (c3_id_completions envA "app/views/index.xml" xmlA idItemsA).2 (by decide)
    (by decide) (by decide)
  exact ⟨h.1, h.2 "myTable"⟩

/-- `isPrefixL` decides the prefix relation. -/
theorem isPrefixL_iff (a b : List Char) : isPrefixL a b = true ↔ a <+: b := by
  induction a generalizing b with
  | nil => simp [isPrefixL]
  | cons x xs ih =>
    cases b with
    | nil => simp [isPrefixL]
    | cons y ys => simp [isPrefixL, ih, List.cons_prefix_cons]

/-- `strFindAux` never finds an index below its running counter. -/
theorem strFindAux_ge (n : List Char) : ∀ (cs : List Char) (i j : Nat),
    strFindAux n cs i = some j → i ≤ j := by
  intro cs
  induction cs with
  | nil =>
    intro i j h
    rw [strFindAux] at h
    split at h
    · exact le_of_eq (Option.some.inj h)
    · exact absurd h (by simp)
  | cons c t ih =>
    intro i j h
    rw [strFindAux] at h
    split at h
    · exact le_of_eq (Option.some.inj h)
    · exact le_trans (Nat.le_succ i) (ih (i + 1) j h)

/-- `strFindAux` fails exactly when the needle is not an infix. -/
theorem strFindAux_eq_none_iff (n : List Char) : ∀ (cs : List Char) (i : Nat),
    strFindAux n cs i = none ↔ ¬ (n <:+: cs) := by
  intro cs
  induction cs with
  | nil =>
    intro i
    rw [strFindAux]
    split
    case isTrue hp =>
      simp only [List.infix_nil]
      have : n = [] := by
        cases n with
        | nil => rfl
        | cons a as => exact absurd hp (by simp [isPrefixL])
      simp [this]
    case isFalse hp =>
      have : n ≠ [] := by
        intro hn
        exact hp (by simp [hn, isPrefixL])
      simp [List.infix_nil, this]
  | cons c t ih =>
    intro i
    rw [strFindAux]
    split
    case isTrue hp =>
      have : n <:+: c :: t := ((isPrefixL_iff n (c :: t)).mp hp).isInfix
      simp [this]
    case isFalse hp =>
      rw [ih (i + 1), List.infix_cons_iff]
      have : ¬ (n <+: c :: t) := fun hpre => hp ((isPrefixL_iff n (c :: t)).mpr hpre)
      simp [this]

/-- JavaScript `indexOf === -1` is the "does not contain" test. -/
theorem jsIndexOf_neg_one_iff (h n : String) :
    jsIndexOfStr h n = -1 ↔ ¬ (n.data <:+: h.data) := by
  rw [jsIndexOfStr, strFindIdx]
  cases hf : strFindAux n.data h.data 0 with
  | none => simp [(strFindAux_eq_none_iff n.data h.data 0).mp hf]
  | some j =>
    simp only []
    constructor
    · intro habs
      exact absurd habs (by omega)
    · intro hni
      exact absurd ((strFindAux_eq_none_iff n.data h.data 0).mpr hni) (by simp [hf])

/-- `strFindAux` from 0 yields 0 exactly on a prefix match. -/
theorem strFindAux_zero_iff (n cs : List Char) :
    strFindAux n cs 0 = some 0 ↔ isPrefixL n cs = true := by
  cases cs with
  | nil =>
    rw [strFindAux]
    split
    case isTrue hp => simp [hp]
    case isFalse hp => simp [hp]
  | cons c t =>
    rw [strFindAux]
    split
    case isTrue hp => simp [hp]
    case isFalse hp =>
      simp only [hp]
      constructor
      · intro habs
        have := strFindAux_ge n t 1 0 habs
        omega
      · intro habs
        exact absurd habs (by simp)

/-- JavaScript `indexOf === 0` is the "starts with" test. -/
theorem jsIndexOf_zero_iff (h n : String) :
    jsIndexOfStr h n = 0 ↔ n.data <+: h.data := by
  rw [jsIndexOfStr, strFindIdx, ← isPrefixL_iff, ← strFindAux_zero_iff]
  cases hf : strFindAux n.data h.data 0 with
  | none => simp
  | some j => simp [Int.natCast_eq_zero]

/-- A one-character list is an infix exactly when the character occurs. -/
theorem singleton_infix_iff (c : Char) (l : List Char) : [c] <:+: l ↔ c ∈ l := by
  constructor
  · rintro ⟨s, t, rfl⟩
    simp
  · intro hm
    obtain ⟨s, t, rfl⟩ := List.append_of_mem hm
    exact ⟨s, t, by simp⟩

/-- The class-completion loop of the api handlers filters exactly as the
claim words it. -/
theorem classItems_eq_spec (types : List (String × TiType)) (apiName : String) :
    classItems types apiName = specClassItems types apiName := by
  unfold classItems specClassItems
  congr 1
  apply List.filter_congr
  intro kv _
  have e1 : decide (jsIndexOfStr kv.1 apiName = 0) = decide (apiName.data <+: kv.1.data) :=
    decide_eq_decide.mpr (jsIndexOf_zero_iff kv.1 apiName)
  have e2 : decide (jsIndexOfStr kv.1 "_" = -1) = !decide ('_' ∈ kv.1.data) := by
    rw [← decide_not]
    exact decide_eq_decide.mpr
      ((jsIndexOf_neg_one_iff kv.1 "_").trans (by rw [singleton_infix_iff]))
  simp only [e1, e2]

/-- The `deprecated` filter of the member loops, reworded. -/
theorem deprecated_factor (f : String) :
    decide (jsIndexOfStr f "deprecated" = -1)
      = !decide (("deprecated" : String).data <:+: f.data) := by
  rw [← decide_not]
  exact decide_eq_decide.mpr (jsIndexOf_neg_one_iff f "deprecated")

/-- The member-completion loops of the api handlers filter exactly as the
claim words it. -/
theorem memberItems_eq_spec (mf : String → String → Bool) (attrFrag : Option String)
    (apiObj : TiType) :
    memberItems mf attrFrag apiObj = specMemberItems mf attrFrag apiObj := by
  unfold memberItems specMemberItems
  congr 1
  · congr 1
    apply List.filter_congr
    intro f _
    cases attrFrag with
    | none => simp [attrIsEmpty, deprecated_factor f]
    | some a => simp [attrIsEmpty, deprecated_factor f]
  · congr 1
    apply List.filter_congr
    intro f _
    cases attrFrag with
    | none => simp [attrIsEmpty, deprecated_factor f]
    | some a => simp [attrIsEmpty, deprecated_factor f]

/-- C4: whenever the line prefix resolves to a (non-empty) Titanium api
name and optional attribute fragment, `getTitaniumApiCompletions` returns
exactly the class completions (catalog keys starting with the api name and
containing no underscore, only when no attribute fragment is typed),
followed by the resolved type's functions and then properties that match
the typed fragment and do not contain the substring "deprecated" — all in
the catalog's own enumeration order, with no other ranking. -/
theorem c4_titanium_api (env : Env) (lp apiName : String) (attrFrag : Option String)
    (h : tiApiResolve lp = some (apiName, attrFrag)) (hne : strIsEmpty apiName = false) :
    getTitaniumApiCompletions env lp =
      (if attrIsEmpty attrFrag then specClassItems env.titaniumTypes apiName else [])
      ++ (match env.titaniumTypes.lookup apiName with
          | some apiObj => specMemberItems env.matchesFn attrFrag apiObj
          | none => []) := by
  simp only [getTitaniumApiCompletions, h, hne, Bool.false_eq_true, if_false,
    classItems_eq_spec, memberItems_eq_spec]

/-- C4 witness: `"Ti.UI.cr"` resolves to api `Ti.UI` with fragment `cr`; on
`envA`'s catalog the result is the fragment-filtered members of `Ti.UI`. -/
theorem c4_witness :
    getTitaniumApiCompletions envA "Ti.UI.cr" =
      (if attrIsEmpty (some "cr") then specClassItems envA.titaniumTypes "Ti.UI" else [])
      ++ (match envA.titaniumTypes.lookup "Ti.UI" with
          | some apiObj => specMemberItems envA.matchesFn (some "cr") apiObj
          | none => []) :=
  c4_titanium_api envA "Ti.UI.cr" "Ti.UI" (some "cr") (by decide) (by decide)

/-- Every openable file whose non-empty text matches a non-global pattern
contributes a callback entry, whatever the threaded `lastIndex` is. -/
theorem getReferencesFrom_cover {T : Type} (fs : String → Option String) (re : RE)
    (cb : String → Rng → T) (file t : String)
    (hfs : fs file = some t) (hlen : t.length > 0)
    (hm : (reSearchFrom re t.data 0).isSome = true) :
    ∀ (files : List String) (li : Nat), file ∈ files →
      ∃ r, cb file r ∈ getReferencesFrom fs re false cb files li := by
  intro files
  induction files with
  | nil => intro li h; exact absurd h (List.not_mem_nil _)
  | cons x rest ih =>
    intro li hmem
    rcases List.mem_cons.mp hmem with rfl | hmem'
    · obtain ⟨⟨st, en, caps⟩, hs⟩ := Option.isSome_iff_exists.mp hm
      have hj : jsExec re false t li = (some (st, matchArray re t.data st en caps), li) := by
        simp [jsExec, hs]
      refine ⟨refRange (positionAt t st), ?_⟩
      simp only [getReferencesFrom, hfs]
      rw [if_pos hlen, hj]
      exact List.mem_append_left _ (List.mem_cons_self _ _)
    · cases hx : fs x with
      | none =>
        simp only [getReferencesFrom, hx]
        exact ih li hmem'
      | some text =>
        simp only [getReferencesFrom, hx]
        by_cases hl : text.length > 0
        · rw [if_pos hl]
          cases hj : jsExec re false text li with
          | mk fst snd =>
            cases fst with
            | none => exact ih snd hmem'
            | some pr =>
              obtain ⟨st, arr⟩ := pr
              obtain ⟨r, hr⟩ := ih snd hmem'
              exact ⟨r, List.mem_append_right _ hr⟩
        · rw [if_neg hl]
          exact ih li hmem'

/-- C5 (amended): `getReferences` is total (the embedding never throws); a
file that cannot be opened is silently skipped with the search state (the
regex's `lastIndex`) untouched and the search continues over the remaining
files; and — provided the pattern is non-global, so `exec` carries no
`lastIndex` between files — the returned list contains a callback entry for
every file whose non-empty text matches the pattern. -/
theorem c5_getReferences_skip_and_cover :
    (∀ (T : Type) (fs : String → Option String) (re : RE) (g : Bool)
        (cb : String → Rng → T) (file : String) (rest : List String) (li : Nat),
        fs file = none →
        getReferencesFrom fs re g cb (file :: rest) li =
          getReferencesFrom fs re g cb rest li)
    ∧ (∀ (T : Type) (fs : String → Option String) (re : RE)
        (cb : String → Rng → T) (files : List String) (file t : String),
        file ∈ files → fs file = some t → t.length > 0 →
        (reSearchFrom re t.data 0).isSome = true →
        ∃ r, cb file r ∈ getReferences fs re false cb files) := by
  constructor
  · intro T fs re g cb file rest li h
    simp only [getReferencesFrom, h]
  · intro T fs re cb files file t hmem hfs hlen hm
    exact getReferencesFrom_cover fs re cb file t hfs hlen hm files 0 hmem

/-- C5 counterexample to the claim as stated: with the global pattern
`/a/g` shared across files (as the definition providers do), the first
file's match advances `lastIndex` to 1, so the second file — openable,
non-empty, and matching the pattern — contributes no entry: every callback
entry for `f2` would be the string `"f2"`, and the result is `["f1"]`. -/
theorem c5_counterexample :
    getReferences fsC5 (RE.lit 'a') true (fun f _ => f) ["f1", "f2"] = ["f1"]
    ∧ fsC5 "f2" = some "a"
    ∧ ("a" : String).length > 0
    ∧ (reSearchFrom (RE.lit 'a') ("a" : String).data 0).isSome = true
    ∧ "f2" ∉ getReferences fsC5 (RE.lit 'a') true (fun f _ => f) ["f1", "f2"] := by
  refine ⟨by decide, by decide, by decide, by decide, by decide⟩

/-- C5 witness: an unopenable file is skipped, and with a non-global
pattern the matching file `f2` does get an entry. -/
theorem c5_witness :
    getReferencesFrom fsC5 (RE.lit 'a') false (fun f _ => f) ["nope", "f2"] 0 =
        getReferencesFrom fsC5 (RE.lit 'a') false (fun f _ => f) ["f2"] 0
    ∧ "f2" ∈ getReferences fsC5 (RE.lit 'a') false (fun f _ => f) ["f1", "f2"] := by
  constructor
  · exact c5_getReferences_skip_and_cover.1 String fsC5 (RE.lit 'a') false (fun f _ => f)
      "nope" ["f2"] 0 (by decide)
  · obtain ⟨r, hr⟩ := c5_getReferences_skip_and_cover.2 String fsC5 (RE.lit 'a')
      (fun f _ => f) ["f1", "f2"] "f2" "a" (by decide) (by decide) (by decide) (by decide)
    exact hr

/-- Prepending to a list shifts `getLast?`'s default. -/
theorem getLastD_shift (i : Nat) (l : List Nat) (s0 : Nat) :
    ((i :: l).getLast?).getD s0 = (l.getLast?).getD i := by
  cases l with
  | nil => rfl
  | cons x t =>
    rw [List.getLast?_cons_cons, List.getLast?_eq_getLast_of_ne_nil (List.cons_ne_nil x t)]
    rfl

/-- The quote-scan loop computes the last quote index before the caret
(defaulting to the initial 0) and the first one after it (defaulting to the
initial caret column), for any strictly increasing index list. -/
theorem quoteScan_eq (ch : Nat) : ∀ (qs : List Nat), qs.Pairwise (· < ·) →
    ∀ (s0 e0 : Nat),
      quoteScan ch qs (s0, e0) =
        (((qs.filter (fun i => i < ch)).getLast?).getD s0,
         ((qs.filter (fun i => ch < i)).head?).getD e0) := by
  intro qs
  induction qs with
  | nil => intro _ s0 e0; simp [quoteScan]
  | cons i rest ih =>
    intro hp s0 e0
    rw [List.pairwise_cons] at hp
    obtain ⟨hlt, hrest⟩ := hp
    by_cases h1 : i < ch
    · have h2 : ¬ ch < i := by omega
      rw [quoteScan, if_pos h1, ih hrest i e0]
      simp only [List.filter_cons, decide_eq_true_eq]
      rw [if_pos (by simpa using h1), if_neg (by simpa using h2)]
      rw [getLastD_shift]
    · by_cases h2 : ch < i
      · rw [quoteScan, if_neg h1, if_pos h2]
        have hfl : rest.filter (fun j => j < ch) = [] := by
          rw [List.filter_eq_nil_iff]
          intro a ha
          have := hlt a ha
          simp only [decide_eq_true_eq]
          omega
        have hallgt : ∀ a ∈ rest, ch < a := fun a ha => lt_trans h2 (hlt a ha)
        simp only [List.filter_cons]
        rw [if_neg (by simpa using h1), if_pos (by simpa using h2), hfl]
        rfl
      · have hieq : i = ch := by omega
        rw [quoteScan, if_neg h1, if_neg h2, ih hrest s0 e0]
        simp only [List.filter_cons]
        rw [if_neg (by simpa using h1), if_neg (by simpa using h2)]

/-- The loop bounds, in terms of the declarative last/first quote indices. -/
theorem quoteBounds_eq (line : String) (ch : Nat) :
    quoteBounds line ch =
      ((lastQuoteBefore line ch).getD 0, (firstQuoteAfter line ch).getD ch) := by
  unfold quoteBounds lastQuoteBefore firstQuoteAfter
  exact quoteScan_eq ch (quoteIndices line) ((List.pairwise_lt_range _).filter _) 0 ch

/-- C6 (amended): the extraction uses the last quote strictly before the
caret column and the first quote strictly after it (a quote exactly at the
caret is ignored); when no quote follows the caret, the end bound falls at
the caret column itself, and a value is produced only when both bounds are
non-zero — in particular no value is produced when the opening quote sits
at column 0, and a value can be produced without any closing quote.
`provideDefinition` turns the absent value into `''` and `provideHover`
additionally drops an empty extracted value. -/
theorem c6_quote_extraction (line : String) (ch : Nat) :
    extractQuotedValue line ch =
      (match lastQuoteBefore line ch, firstQuoteAfter line ch with
       | some s, some e => if s ≠ 0 then some (sliceStr line.data (s + 1) e) else none
       | some s, none => if s ≠ 0 ∧ ch ≠ 0 then some (sliceStr line.data (s + 1) ch) else none
       | none, _ => none)
    ∧ definitionValue line ch = (extractQuotedValue line ch).getD ""
    ∧ hoverValue line ch =
        (match extractQuotedValue line ch with
         | some v => if strIsEmpty v then none else some v
         | none => none) := by
  refine ⟨?_, rfl, rfl⟩
  unfold extractQuotedValue
  rw [quoteBounds_eq]
  cases hl : lastQuoteBefore line ch with
  | none => simp
  | some s =>
    cases hf : firstQuoteAfter line ch with
    | none =>
      by_cases hs : s = 0 <;> by_cases hc : ch = 0 <;> simp [hs, hc]
    | some e =>
      have he : e ≠ 0 := by
        unfold firstQuoteAfter at hf
        cases hq : (quoteIndices line).filter (fun i => ch < i) with
        | nil => rw [hq] at hf; exact absurd hf (by simp)
        | cons x t =>
          rw [hq] at hf
          have hx : x ∈ (quoteIndices line).filter (fun i => ch < i) := by
            rw [hq]; exact List.mem_cons_self _ _
          have hce : ch < x := by simpa using List.of_mem_filter hx
          have : x = e := by simpa using hf
          omega
      by_cases hs : s = 0 <;> simp [hs, he]

/-- C6 counterexample to the claim as stated: on the line `'ab'` with the
caret at column 2 the cursor lies strictly between the quotes at indices 0
and 3, so the claim's extraction yields `"ab"` (`specQuoteExtract`), but
both providers extract nothing because the opening quote's index 0 is
falsy in the guard `startIndex && endIndex`. -/
theorem c6_counterexample :
    extractQuotedValue "'ab'" 2 = none
    ∧ specQuoteExtract "'ab'" 2 = some "ab"
    ∧ definitionValue "'ab'" 2 = ""
    ∧ hoverValue "'ab'" 2 = none := by
  refine ⟨by decide, by decide, by decide, by decide⟩

/-- The install loop unrolls to one event block per enumerated update. -/
theorem installUpdatesGo_eq (total : Nat) (inc : Bool) :
    ∀ (us : List UpdateChoice) (c : Nat),
      installUpdatesGo total inc us c =
        (us.enumFrom c).flatMap (fun q => updateEvents total inc q.1 q.2) := by
  intro us
  induction us with
  | nil => intro c; rfl
  | cons u rest ih =>
    intro c
    rw [installUpdatesGo, ih]
    rfl

/-- Each update's event block reports exactly one progress increment when
`incrementProgress` is set (and none otherwise), whether the install
succeeded or failed. -/
theorem countP_updateEvents_increment (total : Nat) (inc : Bool) (c : Nat)
    (u : UpdateChoice) :
    (updateEvents total inc c u).countP isIncrementEvent = if inc then 1 else 0 := by
  unfold updateEvents
  cases hs : u.succeeds <;> cases inc <;> cases hm : u.errorMetadata <;>
    simp [isIncrementEvent, List.countP_cons, List.countP_append] <;>
      (intro a _ _ ha; subst ha; rfl)

/-- Each update's block opens with exactly one "Installing …" report. -/
theorem countP_updateEvents_installing (total : Nat) (inc : Bool) (c : Nat)
    (u : UpdateChoice) :
    (updateEvents total inc c u).countP isInstallingEvent = 1 := by
  unfold updateEvents
  cases hs : u.succeeds <;> cases inc <;> cases hm : u.errorMetadata <;>
    simp [isInstallingEvent, List.countP_cons, List.countP_append] <;>
      (intro a _ _ ha; subst ha; rfl)

/-- Event counts over the whole loop: one block's count per update. -/
theorem countP_installUpdatesGo (total : Nat) (inc : Bool) (p : ProgressEvent → Bool)
    (k : Nat) (hblock : ∀ c u, (updateEvents total inc c u).countP p = k) :
    ∀ (us : List UpdateChoice) (c : Nat),
      (installUpdatesGo total inc us c).countP p = k * us.length := by
  intro us
  induction us with
  | nil => intro c; simp [installUpdatesGo]
  | cons u rest ih =>
    intro c
    rw [installUpdatesGo, List.countP_append, hblock, ih]
    simp [List.length_cons, Nat.mul_add, Nat.mul_one, Nat.add_comm]

/-- C9: `installUpdates` first sorts the updates ascending by `priority`
(the comparator `curr.priority - prev.priority`) and then processes them
strictly sequentially in that order, one event block per update; a failed
install does not stop the remaining updates (every update of the sorted
permutation gets its block), and the progress counter advances exactly once
per update — one "Installing (counter/total)" report per update and, when
`incrementProgress` is set, exactly one increment report per update,
success or failure. -/
theorem c9_install_updates (l : List UpdateChoice) (inc : Bool) :
    installUpdates l inc =
      ((sortUpdates l).enumFrom 1).flatMap (fun q => updateEvents l.length inc q.1 q.2)
    ∧ (sortUpdates l).Perm l
    ∧ (sortUpdates l).Sorted updateLE
    ∧ (installUpdates l inc).countP isIncrementEvent = (if inc then l.length else 0)
    ∧ (installUpdates l inc).countP isInstallingEvent = l.length := by
  have hperm : (sortUpdates l).Perm l := List.perm_insertionSort updateLE l
  have hlen : (sortUpdates l).length = l.length := hperm.length_eq
  refine ⟨installUpdatesGo_eq _ _ _ _, hperm, List.sorted_insertionSort updateLE l, ?_, ?_⟩
  · rw [installUpdates, countP_installUpdatesGo l.length inc isIncrementEvent
      (if inc then 1 else 0) (fun c u => countP_updateEvents_increment l.length inc c u)
      (sortUpdates l) 1, hlen]
    cases inc <;> simp
  · rw [installUpdates, countP_installUpdatesGo l.length inc isInstallingEvent 1
      (fun c u => countP_updateEvents_installing l.length inc c u) (sortUpdates l) 1,
      hlen, Nat.one_mul]

/-- C10: `insertI18nString` ensures the default-language `strings.xml`
exists (creating the `<resources>` skeleton when absent) and inserts the
new `<string name="…">` element immediately before the first
`</resources>` occurrence; when the text contains no `</resources>` tag,
the file content is left unchanged. -/
theorem c10_insert_i18n (cfg : I18nConfig) (fs : FileSystem) (text p : String)
    (hp : cfg.i18nPath = some p) :
    readFile (insertI18nString cfg fs text) (stringsPath p cfg.defaultLang) =
      some (specI18nResult (i18nBase fs (stringsPath p cfg.defaultLang)) text) := by
  have hrw : readFile (writeFile fs (stringsPath p cfg.defaultLang) i18nSkeleton)
      (stringsPath p cfg.defaultLang) = some i18nSkeleton := by
    simp [readFile, writeFile, List.lookup]
  unfold insertI18nString
  rw [hp]
  dsimp only
  cases hex : readFile fs (stringsPath p cfg.defaultLang) with
  | some c =>
    have hfe : fileExists fs (stringsPath p cfg.defaultLang) = true := by
      simp only [fileExists]
      rw [show fs.lookup (stringsPath p cfg.defaultLang) = some c from hex]
      rfl
    rw [show (p ++ "/" ++ cfg.defaultLang ++ "/strings.xml") = stringsPath p cfg.defaultLang
      from rfl]
    unfold specI18nResult i18nBase
    rw [if_pos hfe, hex]
    simp only [Option.getD_some]
    cases hidx : strFindIdx c "</resources>" with
    | none => exact hex
    | some i => simp [readFile, writeFile, List.lookup]
  | none =>
    have hfe : fileExists fs (stringsPath p cfg.defaultLang) = false := by
      simp only [fileExists]
      rw [show fs.lookup (stringsPath p cfg.defaultLang) = none from hex]
      rfl
    rw [show (p ++ "/" ++ cfg.defaultLang ++ "/strings.xml") = stringsPath p cfg.defaultLang
      from rfl]
    unfold specI18nResult i18nBase
    rw [if_neg (by simp [hfe]), hrw, hex]
    simp only [Option.getD_none]
    cases hidx : strFindIdx i18nSkeleton "</resources>" with
    | none => exact hrw
    | some i => simp [readFile, writeFile, List.lookup]

/-- C10 witness: inserting `hello` into an empty project first writes the
skeleton and then places the new element before `</resources>`. -/
theorem c10_witness :
    readFile (insertI18nString ⟨"en", some "i18n"⟩ [] "hello") (stringsPath "i18n" "en") =
      some (specI18nResult (i18nBase [] (stringsPath "i18n" "en")) "hello") :=
  c10_insert_i18n ⟨"en", some "i18n"⟩ [] "hello" "i18n" rfl

end TiExt
